import Mathlib

/-!
# Verification of `src/Colorize.h` (scribble-based image colorization)

Shallow embedding of the colorization pipeline.  Flattened pixel planes are
maps `ℕ → ℝ` (machine doubles are modelled as real numbers), masks are
`ℕ → Bool`, and the byte images fed to the mask extractor are
`ℕ → ℕ → ℕ × ℕ × ℕ` grids of channel triples.  The sparse matrix assembled by
`setupProblem` is modelled by the triplet list it is built from, and the
iterative solver (an external library capability) is an abstract parameter
returning a candidate solution together with its success flag.
-/

namespace co

/-- `squaredDifference` from Colorize.h: `(X[r] - X[s]) * (X[r] - X[s])`. -/
noncomputable def squaredDifference (X : ℕ → ℝ) (r s : ℕ) : ℝ :=
  (X r - X s) * (X r - X s)

/-- `variance` from Colorize.h: accumulates `sum` and `squaredSum` over the
values and returns `squaredSum / n - (sum * sum) / (n * n) + eps`
(`n = vals.size()`).  The C++ default argument is `eps = 0.01`. -/
noncomputable def variance (vals : List ℝ) (eps : ℝ) : ℝ :=
  (vals.map fun v => v * v).sum / vals.length
    - (vals.sum * vals.sum) / ((vals.length : ℝ) * (vals.length : ℝ)) + eps

/-- The nine `(dx, dy)` offsets of the two nested loops in `getNeighbours`,
in iteration order (`dx` is the outer loop, `dy` the inner one). -/
def neighborOffsets : List (ℤ × ℤ) :=
  [(-1, -1), (-1, 0), (-1, 1), (0, -1), (0, 0), (0, 1), (1, -1), (1, 0), (1, 1)]

/-- `getNeighbours` from Colorize.h: for pixel `(i, j)` of an
`nrows × ncols` grid, push `s = m * ncols + n` for `m = i + dy`,
`n = j + dx`, skipping the center offset and out-of-range positions. -/
def getNeighbours (i j nrows ncols : ℕ) : List ℕ :=
  neighborOffsets.filterMap fun p =>
    if (p.1 = 0 ∧ p.2 = 0) ∨ (i : ℤ) + p.2 < 0 ∨ (j : ℤ) + p.1 < 0
        ∨ (nrows : ℤ) ≤ (i : ℤ) + p.2 ∨ (ncols : ℤ) ≤ (j : ℤ) + p.1 then
      none
    else
      some (((i : ℤ) + p.2) * ncols + ((j : ℤ) + p.1)).toNat

/-- First phase of `getWeights`: `neighborsWeights` holds the squared
luminance differences, which are then mapped through the exponential kernel
`exp(-gamma * w / (2 * var))`, where `var` is the `variance` (with its
default `eps = 0.01`) of the neighbor values with `values[r]` appended. -/
noncomputable def preWeights (values : ℕ → ℝ) (r : ℕ) (neighbors : List ℕ)
    (gamma : ℝ) : List ℝ :=
  (neighbors.map fun s => squaredDifference values r s).map fun w =>
    Real.exp (-gamma * w / (2 * variance (neighbors.map values ++ [values r]) (1 / 100)))

/-- The `normalizer` accumulated in `getWeights`: the sum of the kernel
values. -/
noncomputable def normalizer (values : ℕ → ℝ) (r : ℕ) (neighbors : List ℕ)
    (gamma : ℝ) : ℝ :=
  (preWeights values r neighbors gamma).sum

/-- `getWeights` from Colorize.h: each kernel value divided by the
`normalizer`. -/
noncomputable def getWeights (values : ℕ → ℝ) (r : ℕ) (neighbors : List ℕ)
    (gamma : ℝ) : List ℝ :=
  (preWeights values r neighbors gamma).map fun w =>
    w / normalizer values r neighbors gamma

/-- Modelled from the spec (§4.2, step 2): population variance
`E[X²] - E[X]²` of a list of values.  Used only to compare the code's
`variance` against the spec's description. -/
noncomputable def popVariance (vals : List ℝ) : ℝ :=
  (vals.map fun v => v * v).sum / vals.length
    - (vals.sum / vals.length) * (vals.sum / vals.length)

/-- Modelled from the spec (§4.2): `w(r,s) = exp(-γ·(Y[r]-Y[s])² / (2·σ²))`
with `σ²` the population variance of `{Y[s] : s ∈ neighbors(r)} ∪ {Y[r]}`
plus the additive floor `0.01`, renormalized by the sum.  Used only to state
the refinement claim about `getWeights`. -/
noncomputable def specWeights (values : ℕ → ℝ) (r : ℕ) (neighbors : List ℕ)
    (gamma : ℝ) : List ℝ :=
  (neighbors.map fun s =>
    Real.exp (-gamma * ((values r - values s) ^ 2) /
      (2 * (popVariance (neighbors.map values ++ [values r]) + 1 / 100)))).map
    fun w => w / (neighbors.map fun s =>
      Real.exp (-gamma * ((values r - values s) ^ 2) /
        (2 * (popVariance (neighbors.map values ++ [values r]) + 1 / 100)))).sum

/-- The triplets contributed by the loop body of `setupProblem` at pixel
`(i, j)` (with `r = i * ncols + j`): the unit diagonal `(r, r, 1)` followed
by `(r, s, -w)` for every neighbor `s` with `hasColor[s]` false. -/
noncomputable def rowCoeffs (y : ℕ → ℝ) (hasColor : ℕ → Bool)
    (nrows ncols : ℕ) (gamma : ℝ) (i j : ℕ) : List (ℕ × ℕ × ℝ) :=
  (i * ncols + j, i * ncols + j, (1 : ℝ)) ::
    ((getNeighbours i j nrows ncols).zip
        (getWeights y (i * ncols + j) (getNeighbours i j nrows ncols) gamma)).filterMap
      fun p => if hasColor p.1 then none else some (i * ncols + j, p.1, -p.2)

/-- The full coefficient (triplet) list accumulated by `setupProblem` over
the row-major double loop on pixels. -/
noncomputable def coefficients (y : ℕ → ℝ) (hasColor : ℕ → Bool)
    (nrows ncols : ℕ) (gamma : ℝ) : List (ℕ × ℕ × ℝ) :=
  (List.range nrows).flatMap fun i =>
    (List.range ncols).flatMap fun j =>
      rowCoeffs y hasColor nrows ncols gamma i j

/-- The assembled sparse matrix `A`: `setFromTriplets` sums the values of
all triplets with the given (row, column) position. -/
noncomputable def Amat (y : ℕ → ℝ) (hasColor : ℕ → Bool) (nrows ncols : ℕ)
    (gamma : ℝ) (r c : ℕ) : ℝ :=
  (((coefficients y hasColor nrows ncols gamma).filter
      fun t => t.1 == r && t.2.1 == c).map fun t => t.2.2).sum

/-- The right-hand-side vector assembled by `setupProblem` for one
chrominance plane `chroma` (the code builds `bu` from `u` and `bv` from `v`
with this same accumulation): starting from zero, iteration `(i, j)` adds
`w * chroma[s]` to entry `r = i * ncols + j` for every neighbor `s` with
`hasColor[s]` true.  Entry `r` is written only during its own iteration, so
for `r < nrows * ncols` it equals the sum below with `i = r / ncols`,
`j = r % ncols`; entries outside the vector's `nPixels` range stay zero. -/
noncomputable def rhsVec (y chroma : ℕ → ℝ) (hasColor : ℕ → Bool)
    (nrows ncols : ℕ) (gamma : ℝ) (r : ℕ) : ℝ :=
  if r < nrows * ncols then
    (((getNeighbours (r / ncols) (r % ncols) nrows ncols).zip
        (getWeights y r (getNeighbours (r / ncols) (r % ncols) nrows ncols) gamma)).map
      fun p => if hasColor p.1 then p.2 * chroma p.1 else 0).sum
  else 0

/-- The two `runtime_error`s thrown by `colorize` when a channel's solve
does not report `Eigen::Success`. -/
inductive SolveError where
  | uChannel
  | vChannel

/-- `colorize` from Colorize.h, after the out-of-scope color-space
conversions: the flattened luminance plane `y`, the scribbles' chrominance
planes `u`, `v` and the flattened mask `hasColor` are taken as inputs, and
the external iterative solver is the abstract parameter `solve`, which takes
the prepared matrix and one right-hand side and returns a candidate solution
together with its success flag.  The code solves for U, checks success,
then solves for V, checks success, and merges `(Y, U, V)` into the output;
a failed check throws instead, so no image is produced. -/
noncomputable def colorize
    (solve : (ℕ → ℕ → ℝ) → (ℕ → ℝ) → (ℕ → ℝ) × Bool)
    (y u v : ℕ → ℝ) (hasColor : ℕ → Bool) (nrows ncols : ℕ) (gamma : ℝ) :
    Except SolveError ((ℕ → ℝ) × (ℕ → ℝ) × (ℕ → ℝ)) :=
  if (solve (Amat y hasColor nrows ncols gamma) (rhsVec y u hasColor nrows ncols gamma)).2 then
    if (solve (Amat y hasColor nrows ncols gamma) (rhsVec y v hasColor nrows ncols gamma)).2 then
      Except.ok (y,
        (solve (Amat y hasColor nrows ncols gamma) (rhsVec y u hasColor nrows ncols gamma)).1,
        (solve (Amat y hasColor nrows ncols gamma) (rhsVec y v hasColor nrows ncols gamma)).1)
    else Except.error SolveError.vChannel
  else Except.error SolveError.uChannel

/-- Per-channel absolute difference of byte values (`cv::absdiff`). -/
def absdiff (a b : ℕ) : ℕ := max a b - min a b

/-- `channels[0] + channels[1] + channels[2]` on the per-channel absolute
differences; `cv::Mat` addition on 8-bit images saturates at 255. -/
def diffSum (image scribbles : ℕ → ℕ → ℕ × ℕ × ℕ) (i j : ℕ) : ℕ :=
  min (absdiff (image i j).1 (scribbles i j).1
      + absdiff (image i j).2.1 (scribbles i j).2.1
      + absdiff (image i j).2.2 (scribbles i j).2.2) 255

/-- `cv::threshold` with `THRESH_BINARY`: 255 where the value exceeds
`eps`, else 0. -/
noncomputable def thresholdBin (eps : ℝ) (x : ℕ) : ℕ :=
  if eps < (x : ℝ) then 255 else 0

/-- One `cv::erode` with the default 3×3 structuring element: the minimum
of the mask over the 3×3 window clipped to the grid (the default border
value of erosion is the neutral element of `min`). -/
def erode (nrows ncols : ℕ) (m : ℕ → ℕ → ℕ) : ℕ → ℕ → ℕ := fun i j =>
  (neighborOffsets.filterMap fun p =>
    if (i : ℤ) + p.2 < 0 ∨ (j : ℤ) + p.1 < 0
        ∨ (nrows : ℤ) ≤ (i : ℤ) + p.2 ∨ (ncols : ℤ) ≤ (j : ℤ) + p.1 then
      none
    else
      some (m ((i : ℤ) + p.2).toNat ((j : ℤ) + p.1).toNat)).foldr min (m i j)

/-- `getScribbleMask` from Colorize.h: threshold the summed per-channel
absolute difference of `image` and `scribbles` at `eps`, then apply
`nErosions` erosions.  The C++ defaults are `eps = 1`, `nErosions = 1`. -/
noncomputable def getScribbleMask (nrows ncols : ℕ)
    (image scribbles : ℕ → ℕ → ℕ × ℕ × ℕ) (eps : ℝ) (nErosions : ℕ) :
    ℕ → ℕ → ℕ :=
  (erode nrows ncols)^[nErosions]
    (fun i j => thresholdBin eps (diffSum image scribbles i j))

/-! ## Pixel indexing -/

lemma pixel_lt {i j nrows ncols : ℕ} (hi : i < nrows) (hj : j < ncols) :
    i * ncols + j < nrows * ncols := by
  calc i * ncols + j < i * ncols + ncols := Nat.add_lt_add_left hj _
    _ = (i + 1) * ncols := (Nat.succ_mul i ncols).symm
    _ ≤ nrows * ncols := Nat.mul_le_mul_right _ hi

lemma encode_inj {i j m n ncols : ℕ} (hj : j < ncols) (hn : n < ncols)
    (h : i * ncols + j = m * ncols + n) : i = m ∧ j = n := by
  have hc : 0 < ncols := lt_of_le_of_lt (Nat.zero_le _) hj
  have h1 : (i * ncols + j) / ncols = i := by
    rw [mul_comm, Nat.mul_add_div hc, Nat.div_eq_of_lt hj, Nat.add_zero]
  have h2 : (m * ncols + n) / ncols = m := by
    rw [mul_comm, Nat.mul_add_div hc, Nat.div_eq_of_lt hn, Nat.add_zero]
  have him : i = m := by rw [← h1, h, h2]
  subst him
  exact ⟨rfl, Nat.add_left_cancel h⟩

lemma toNat_encode {a b : ℤ} (c : ℕ) (ha : 0 ≤ a) (hb : 0 ≤ b) :
    (a * c + b).toNat = a.toNat * c + b.toNat := by
  have h : a * c + b = ((a.toNat * c + b.toNat : ℕ) : ℤ) := by
    push_cast [Int.toNat_of_nonneg ha, Int.toNat_of_nonneg hb]; ring
  rw [h, Int.toNat_natCast]

/-! ## Structure of `getNeighbours` -/

lemma mem_neighborOffsets {p : ℤ × ℤ} :
    p ∈ neighborOffsets ↔
      (p.1 = -1 ∨ p.1 = 0 ∨ p.1 = 1) ∧ (p.2 = -1 ∨ p.2 = 0 ∨ p.2 = 1) := by
  rcases p with ⟨a, b⟩
  simp only [neighborOffsets, List.mem_cons, List.not_mem_nil, or_false, Prod.mk.injEq]
  omega

lemma mem_getNeighbours {i j nrows ncols s : ℕ} (hi : i < nrows) (hj : j < ncols) :
    s ∈ getNeighbours i j nrows ncols ↔
      ∃ m n : ℕ, m < nrows ∧ n < ncols ∧ ¬(m = i ∧ n = j) ∧
        m ≤ i + 1 ∧ i ≤ m + 1 ∧ n ≤ j + 1 ∧ j ≤ n + 1 ∧ s = m * ncols + n := by
  unfold getNeighbours
  rw [List.mem_filterMap]
  constructor
  · rintro ⟨p, hp, hval⟩
    rw [mem_neighborOffsets] at hp
    by_cases hg : (p.1 = 0 ∧ p.2 = 0) ∨ (i : ℤ) + p.2 < 0 ∨ (j : ℤ) + p.1 < 0
        ∨ (nrows : ℤ) ≤ (i : ℤ) + p.2 ∨ (ncols : ℤ) ≤ (j : ℤ) + p.1
    · rw [if_pos hg] at hval; exact absurd hval (by simp)
    · rw [if_neg hg] at hval
      have hg0 : ¬(p.1 = 0 ∧ p.2 = 0) := fun h => hg (Or.inl h)
      have hg1 : (0 : ℤ) ≤ (i : ℤ) + p.2 := by omega
      have hg2 : (0 : ℤ) ≤ (j : ℤ) + p.1 := by omega
      have hg3 : (i : ℤ) + p.2 < nrows := by omega
      have hg4 : (j : ℤ) + p.1 < ncols := by omega
      have hs : s = ((i : ℤ) + p.2).toNat * ncols + ((j : ℤ) + p.1).toNat := by
        rw [← Option.some_inj.mp hval, toNat_encode _ hg1 hg2]
      refine ⟨((i : ℤ) + p.2).toNat, ((j : ℤ) + p.1).toNat, by omega, by omega, ?_,
        by omega, by omega, by omega, by omega, hs⟩
      rintro ⟨hm, hn⟩
      exact hg0 ⟨by omega, by omega⟩
  · rintro ⟨m, n, hm, hn, hne, b1, b2, b3, b4, rfl⟩
    refine ⟨((n : ℤ) - j, (m : ℤ) - i), ?_, ?_⟩
    · rw [mem_neighborOffsets]
      constructor <;> omega
    · rw [if_neg ?_]
      · have e : ((i : ℤ) + ((m : ℤ) - i)) * ncols + ((j : ℤ) + ((n : ℤ) - j))
            = ((m * ncols + n : ℕ) : ℤ) := by push_cast; ring
        rw [e, Int.toNat_natCast]
      · rintro (⟨h1, h2⟩ | h | h | h | h) <;> omega

lemma self_not_mem_getNeighbours {i j nrows ncols : ℕ} (hi : i < nrows) (hj : j < ncols) :
    i * ncols + j ∉ getNeighbours i j nrows ncols := by
  rw [mem_getNeighbours hi hj]
  rintro ⟨m, n, hm, hn, hne, _, _, _, _, heq⟩
  obtain ⟨h1, h2⟩ := encode_inj hj hn heq
  exact hne ⟨h1.symm, h2.symm⟩

lemma getNeighbours_nodup (i j nrows ncols : ℕ) :
    (getNeighbours i j nrows ncols).Nodup := by
  apply List.Nodup.filterMap ?_ (by decide)
  intro p q s hp hq
  by_cases hgp : (p.1 = 0 ∧ p.2 = 0) ∨ (i : ℤ) + p.2 < 0 ∨ (j : ℤ) + p.1 < 0
      ∨ (nrows : ℤ) ≤ (i : ℤ) + p.2 ∨ (ncols : ℤ) ≤ (j : ℤ) + p.1
  · rw [if_pos hgp] at hp; exact absurd hp (by simp)
  by_cases hgq : (q.1 = 0 ∧ q.2 = 0) ∨ (i : ℤ) + q.2 < 0 ∨ (j : ℤ) + q.1 < 0
      ∨ (nrows : ℤ) ≤ (i : ℤ) + q.2 ∨ (ncols : ℤ) ≤ (j : ℤ) + q.1
  · rw [if_pos hgq] at hq; exact absurd hq (by simp)
  rw [if_neg hgp] at hp
  rw [if_neg hgq] at hq
  simp only [Option.mem_def, Option.some.injEq] at hp hq
  have hp1 : (0 : ℤ) ≤ (i : ℤ) + p.2 := by omega
  have hp2 : (0 : ℤ) ≤ (j : ℤ) + p.1 := by omega
  have hq1 : (0 : ℤ) ≤ (i : ℤ) + q.2 := by omega
  have hq2 : (0 : ℤ) ≤ (j : ℤ) + q.1 := by omega
  rw [toNat_encode _ hp1 hp2] at hp
  rw [toNat_encode _ hq1 hq2] at hq
  have hpc : ((j : ℤ) + p.1).toNat < ncols := by omega
  have hqc : ((j : ℤ) + q.1).toNat < ncols := by omega
  obtain ⟨e1, e2⟩ := encode_inj hpc hqc (hp.trans hq.symm)
  exact Prod.ext (by omega) (by omega)

lemma getNeighbours_lt {i j nrows ncols : ℕ} (hi : i < nrows) (hj : j < ncols) :
    ∀ s ∈ getNeighbours i j nrows ncols, s < nrows * ncols := by
  intro s hs
  rw [mem_getNeighbours hi hj] at hs
  obtain ⟨m, n, hm, hn, _, _, _, _, _, rfl⟩ := hs
  exact pixel_lt hm hn

lemma getNeighbours_symm {i j m n nrows ncols : ℕ} (hi : i < nrows) (hj : j < ncols)
    (hm : m < nrows) (hn : n < ncols) :
    m * ncols + n ∈ getNeighbours i j nrows ncols ↔
      i * ncols + j ∈ getNeighbours m n nrows ncols := by
  rw [mem_getNeighbours hi hj, mem_getNeighbours hm hn]
  constructor
  · rintro ⟨a, b, ha, hb, hne, c1, c2, c3, c4, heq⟩
    obtain ⟨e1, e2⟩ := encode_inj hn hb heq
    subst e1; subst e2
    exact ⟨i, j, hi, hj, by omega, by omega, by omega, by omega, by omega, rfl⟩
  · rintro ⟨a, b, ha, hb, hne, c1, c2, c3, c4, heq⟩
    obtain ⟨e1, e2⟩ := encode_inj hj hb heq
    subst e1; subst e2
    exact ⟨m, n, hm, hn, by omega, by omega, by omega, by omega, by omega, rfl⟩

lemma getNeighbours_toFinset {i j nrows ncols : ℕ} (hi : i < nrows) (hj : j < ncols) :
    (getNeighbours i j nrows ncols).toFinset =
      ((((Finset.range nrows).filter fun m => m ≤ i + 1 ∧ i ≤ m + 1) ×ˢ
        ((Finset.range ncols).filter fun n => n ≤ j + 1 ∧ j ≤ n + 1)).erase (i, j)).image
        fun p => p.1 * ncols + p.2 := by
  ext s
  simp only [List.mem_toFinset, Finset.mem_image, Finset.mem_erase, Finset.mem_product,
    Finset.mem_filter, Finset.mem_range]
  rw [mem_getNeighbours hi hj]
  constructor
  · rintro ⟨m, n, hm, hn, hne, b1, b2, b3, b4, rfl⟩
    refine ⟨(m, n), ⟨?_, ⟨hm, b1, b2⟩, hn, b3, b4⟩, rfl⟩
    intro h
    exact hne ⟨congrArg Prod.fst h, congrArg Prod.snd h⟩
  · rintro ⟨⟨m, n⟩, ⟨hne, ⟨hm, b1, b2⟩, hn, b3, b4⟩, rfl⟩
    refine ⟨m, n, hm, hn, ?_, b1, b2, b3, b4, rfl⟩
    rintro ⟨rfl, rfl⟩
    exact hne rfl

lemma length_getNeighbours {i j nrows ncols : ℕ} (hi : i < nrows) (hj : j < ncols) :
    (getNeighbours i j nrows ncols).length =
      (min (i + 1) (nrows - 1) + 1 - (i - 1)) * (min (j + 1) (ncols - 1) + 1 - (j - 1)) - 1 := by
  rw [← List.toFinset_card_of_nodup (getNeighbours_nodup i j nrows ncols)]
  rw [getNeighbours_toFinset hi hj]
  rw [Finset.card_image_of_injOn ?inj]
  case inj =>
    rintro ⟨a, b⟩ hab ⟨c, d⟩ hcd heq
    simp only [Finset.coe_erase, Set.mem_diff, Finset.mem_coe, Finset.mem_product,
      Finset.mem_filter, Finset.mem_range] at hab hcd
    obtain ⟨e1, e2⟩ := encode_inj hab.1.2.1 hcd.1.2.1 heq
    exact Prod.ext e1 e2
  rw [Finset.card_erase_of_mem (by
    simp only [Finset.mem_product, Finset.mem_filter, Finset.mem_range]
    exact ⟨⟨hi, by omega, by omega⟩, hj, by omega, by omega⟩)]
  rw [Finset.card_product]
  have hR : (Finset.range nrows).filter (fun m => m ≤ i + 1 ∧ i ≤ m + 1)
      = Finset.Icc (i - 1) (min (i + 1) (nrows - 1)) := by
    ext m
    simp only [Finset.mem_filter, Finset.mem_range, Finset.mem_Icc]
    omega
  have hC : (Finset.range ncols).filter (fun n => n ≤ j + 1 ∧ j ≤ n + 1)
      = Finset.Icc (j - 1) (min (j + 1) (ncols - 1)) := by
    ext n
    simp only [Finset.mem_filter, Finset.mem_range, Finset.mem_Icc]
    omega
  rw [hR, hC, Nat.card_Icc, Nat.card_Icc]

/-! ## The affinity weight engine -/

lemma sq_sum_le_length_mul_sum_sq (l : List ℝ) :
    l.sum * l.sum ≤ (l.length : ℝ) * (l.map fun v => v * v).sum := by
  induction l with
  | nil => simp
  | cons a t ih =>
    rcases t with _ | ⟨b, t⟩
    · simp
    · set s := (b :: t).sum with hs
      set q := ((b :: t).map fun v => v * v).sum with hq
      set n : ℝ := ((b :: t).length : ℝ) with hn
      have hn1 : (1 : ℝ) ≤ n := by
        rw [hn]; exact_mod_cast Nat.succ_le_of_lt (by simp)
      have hln : ((a :: b :: t).length : ℝ) = n + 1 := by
        rw [hn]; push_cast [List.length_cons]; ring
      have hsum : (a :: b :: t).sum = a + s := by rw [hs, List.sum_cons]
      have hqsum : ((a :: b :: t).map fun v => v * v).sum = a * a + q := by
        rw [hq, List.map_cons, List.sum_cons]
      rw [hsum, hqsum, hln]
      nlinarith [ih, sq_nonneg (n * a - s), hn1, sq_nonneg (a - b)]

lemma variance_ge (vals : List ℝ) (eps : ℝ) : eps ≤ variance vals eps := by
  unfold variance
  rcases vals with _ | ⟨a, t⟩
  · simp
  · set l := a :: t with hl
    have hn : (0 : ℝ) < (l.length : ℝ) := by
      exact_mod_cast Nat.succ_le_of_lt (by simp [hl])
    have key := sq_sum_le_length_mul_sum_sq l
    have h2 : l.sum * l.sum / ((l.length : ℝ) * (l.length : ℝ))
        ≤ (l.map fun v => v * v).sum / (l.length : ℝ) := by
      rw [div_le_div_iff₀ (by positivity) hn]
      calc l.sum * l.sum * (l.length : ℝ)
          ≤ ((l.length : ℝ) * (l.map fun v => v * v).sum) * (l.length : ℝ) :=
            mul_le_mul_of_nonneg_right key (le_of_lt hn)
        _ = (l.map fun v => v * v).sum * ((l.length : ℝ) * (l.length : ℝ)) := by ring
    linarith

lemma variance_eq_popVariance (vals : List ℝ) (eps : ℝ) :
    variance vals eps = popVariance vals + eps := by
  unfold variance popVariance
  rw [div_mul_div_comm]

lemma preWeights_length (values : ℕ → ℝ) (r : ℕ) (neighbors : List ℕ) (gamma : ℝ) :
    (preWeights values r neighbors gamma).length = neighbors.length := by
  simp [preWeights]

lemma getWeights_length (values : ℕ → ℝ) (r : ℕ) (neighbors : List ℕ) (gamma : ℝ) :
    (getWeights values r neighbors gamma).length = neighbors.length := by
  simp [getWeights, preWeights]

lemma preWeights_pos (values : ℕ → ℝ) (r : ℕ) (neighbors : List ℕ) (gamma : ℝ) :
    ∀ w ∈ preWeights values r neighbors gamma, 0 < w := by
  intro w hw
  simp only [preWeights, List.map_map, List.mem_map, Function.comp] at hw
  obtain ⟨s, _, rfl⟩ := hw
  exact Real.exp_pos _

lemma normalizer_pos (values : ℕ → ℝ) (r : ℕ) (neighbors : List ℕ) (gamma : ℝ)
    (h : neighbors ≠ []) : 0 < normalizer values r neighbors gamma := by
  apply List.sum_pos _ (preWeights_pos values r neighbors gamma)
  intro hnil
  apply h
  have := preWeights_length values r neighbors gamma
  rw [hnil] at this
  exact List.length_eq_zero.mp this.symm

lemma getWeights_pos (values : ℕ → ℝ) (r : ℕ) (neighbors : List ℕ) (gamma : ℝ) :
    ∀ w ∈ getWeights values r neighbors gamma, 0 < w := by
  intro w hw
  simp only [getWeights, List.mem_map] at hw
  obtain ⟨p, hp, rfl⟩ := hw
  have hnil : neighbors ≠ [] := by
    intro h
    rw [h] at hp
    simp [preWeights] at hp
  exact div_pos (preWeights_pos values r neighbors gamma p hp)
    (normalizer_pos values r neighbors gamma hnil)

lemma getWeights_nonneg (values : ℕ → ℝ) (r : ℕ) (neighbors : List ℕ) (gamma : ℝ) :
    ∀ w ∈ getWeights values r neighbors gamma, 0 ≤ w :=
  fun w hw => le_of_lt (getWeights_pos values r neighbors gamma w hw)

lemma getWeights_sum (values : ℕ → ℝ) (r : ℕ) (neighbors : List ℕ) (gamma : ℝ)
    (h : neighbors ≠ []) : (getWeights values r neighbors gamma).sum = 1 := by
  have hN : 0 < normalizer values r neighbors gamma :=
    normalizer_pos values r neighbors gamma h
  unfold getWeights
  have hdiv : ((preWeights values r neighbors gamma).map
      fun w => w / normalizer values r neighbors gamma).sum
      = (preWeights values r neighbors gamma).sum / normalizer values r neighbors gamma := by
    simp only [div_eq_mul_inv]
    rw [List.sum_map_mul_right, List.map_id']
  rw [hdiv]
  exact div_self (ne_of_gt hN)

lemma getWeights_get_pos (values : ℕ → ℝ) (r : ℕ) (neighbors : List ℕ) (gamma : ℝ)
    (k : ℕ) (hk : k < (getWeights values r neighbors gamma).length) :
    0 < (getWeights values r neighbors gamma).get ⟨k, hk⟩ :=
  getWeights_pos values r neighbors gamma _ (List.get_mem _ _ _)

/-! ## Structure of the assembled system -/

lemma flatMap_range_eq_single {β : Type} (g : ℕ → List β) (n i : ℕ) (hi : i < n)
    (h : ∀ x, x < n → x ≠ i → g x = []) : (List.range n).flatMap g = g i := by
  induction n with
  | zero => exact absurd hi (by omega)
  | succ n ih =>
    rw [List.range_succ, List.flatMap_append]
    rcases Nat.lt_or_ge i n with hin | hin
    · rw [ih hin fun x hx hxi => h x (by omega) hxi]
      have hn : g n = [] := h n (by omega) (by omega)
      simp [hn]
    · have hieq : i = n := by omega
      subst hieq
      have hnil : (List.range i).flatMap g = [] := by
        rw [List.flatMap_eq_nil_iff]
        intro x hx
        exact h x (by simp at hx; omega) (by simp at hx; omega)
      simp [hnil]

lemma rowCoeffs_fst (y : ℕ → ℝ) (hc : ℕ → Bool) (nrows ncols : ℕ) (gamma : ℝ)
    (i j : ℕ) : ∀ t ∈ rowCoeffs y hc nrows ncols gamma i j, t.1 = i * ncols + j := by
  intro t ht
  unfold rowCoeffs at ht
  rcases List.mem_cons.mp ht with h | h
  · rw [h]
  · obtain ⟨p, _, hp⟩ := List.mem_filterMap.mp h
    by_cases hcp : hc p.1
    · rw [if_pos hcp] at hp; exact absurd hp (by simp)
    · rw [if_neg hcp] at hp
      rw [← Option.some_inj.mp hp]

lemma coefficients_filter_row (y : ℕ → ℝ) (hc : ℕ → Bool) {nrows ncols : ℕ}
    (gamma : ℝ) {i j : ℕ} (hi : i < nrows) (hj : j < ncols) :
    (coefficients y hc nrows ncols gamma).filter (fun t => t.1 == i * ncols + j)
      = rowCoeffs y hc nrows ncols gamma i j := by
  unfold coefficients
  simp only [List.filter_flatMap]
  have hrow : ∀ x x', x' < ncols → ¬(x = i ∧ x' = j) →
      (rowCoeffs y hc nrows ncols gamma x x').filter
        (fun t => t.1 == i * ncols + j) = [] := by
    intro x x' hx' hne
    rw [List.filter_eq_nil_iff]
    intro t ht
    have hfst := rowCoeffs_fst y hc nrows ncols gamma x x' t ht
    simp only [beq_iff_eq, hfst]
    intro heq
    obtain ⟨e1, e2⟩ := encode_inj hx' hj heq
    exact hne ⟨e1, e2⟩
  rw [flatMap_range_eq_single _ nrows i hi ?houter]
  case houter =>
    intro x hx hxi
    rw [List.flatMap_eq_nil_iff]
    intro j' hj'
    exact hrow x j' (List.mem_range.mp hj') fun h => hxi h.1
  rw [flatMap_range_eq_single _ ncols j hj ?hinner]
  case hinner =>
    intro x' hx' hx'j
    exact hrow i x' hx' fun h => hx'j h.2
  rw [List.filter_eq_self.mpr]
  intro t ht
  simp only [beq_iff_eq]
  exact rowCoeffs_fst y hc nrows ncols gamma i j t ht

lemma zipRow_filter_not_mem {hc : ℕ → Bool} {c r : ℕ} {nb : List ℕ} {ws : List ℝ}
    (h : hc c = true ∨ c ∉ nb) :
    (((nb.zip ws).filterMap fun p => if hc p.1 then none
        else some (r, p.1, -p.2)).filter fun t => t.2.1 == c) = [] := by
  induction nb generalizing ws with
  | nil => simp
  | cons a nb ih =>
    rcases ws with _ | ⟨w, ws⟩
    · simp
    · have htail : hc c = true ∨ c ∉ nb := by
        rcases h with h | h
        · exact Or.inl h
        · exact Or.inr fun hmem => h (List.mem_cons_of_mem _ hmem)
      rw [List.zip_cons_cons, List.filterMap_cons]
      by_cases ha : hc a
      · simp only [ha, if_true]
        exact ih htail
      · have hac : a ≠ c := by
          intro heq
          rcases h with h | h
          · rw [heq] at ha; exact ha h
          · exact h (heq ▸ List.mem_cons_self a nb)
        simp only [Bool.not_eq_true] at ha
        simp only [ha, Bool.false_eq_true, if_false, List.filter_cons]
        have : (((r, a, -w) : ℕ × ℕ × ℝ).2.1 == c) = false := by
          simp [hac]
        rw [this]
        simp only [Bool.false_eq_true, if_false]
        exact ih htail

lemma zipRow_filter_get {hc : ℕ → Bool} {r : ℕ} {nb : List ℕ} {ws : List ℝ}
    (hnd : nb.Nodup) (k : ℕ) (hk : k < nb.length) (hkw : k < ws.length)
    (hmask : hc (nb.get ⟨k, hk⟩) = false) :
    (((nb.zip ws).filterMap fun p => if hc p.1 then none
        else some (r, p.1, -p.2)).filter fun t => t.2.1 == nb.get ⟨k, hk⟩)
      = [(r, nb.get ⟨k, hk⟩, -(ws.get ⟨k, hkw⟩))] := by
  induction nb generalizing ws k with
  | nil => exact absurd hk (by simp)
  | cons a nb ih =>
    rcases ws with _ | ⟨w, ws⟩
    · exact absurd hkw (by simp)
    · rw [List.zip_cons_cons, List.filterMap_cons]
      rcases k with _ | k
      · have hget : (a :: nb).get ⟨0, hk⟩ = a := rfl
        rw [hget] at hmask ⊢
        simp only [hmask, Bool.false_eq_true, if_false, List.filter_cons]
        have hhead : (((r, a, -w) : ℕ × ℕ × ℝ).2.1 == a) = true := by simp
        rw [hhead]
        simp only [if_true, List.get]
        have htail : hc a = true ∨ a ∉ nb := Or.inr (List.nodup_cons.mp hnd).1
        rw [zipRow_filter_not_mem htail]
      · have hget : (a :: nb).get ⟨k + 1, hk⟩ = nb.get ⟨k, by simpa using hk⟩ := rfl
        have hgetw : (w :: ws).get ⟨k + 1, hkw⟩ = ws.get ⟨k, by simpa using hkw⟩ := rfl
        rw [hget, hgetw] at *
        have hanb : a ∉ nb := (List.nodup_cons.mp hnd).1
        have hane : a ≠ nb.get ⟨k, by simpa using hk⟩ := by
          intro heq
          exact hanb (heq ▸ List.get_mem nb k _)
        by_cases ha : hc a
        · simp only [ha, if_true]
          exact ih (List.nodup_cons.mp hnd).2 k _ _ hmask
        · simp only [Bool.not_eq_true] at ha
          simp only [ha, Bool.false_eq_true, if_false, List.filter_cons]
          have hhead : (((r, a, -w) : ℕ × ℕ × ℝ).2.1 == nb.get ⟨k, by simpa using hk⟩) = false := by
            rw [beq_eq_false_iff_ne]
            exact hane
          rw [hhead]
          simp only [Bool.false_eq_true, if_false]
          exact ih (List.nodup_cons.mp hnd).2 k _ _ hmask

lemma Amat_row {y : ℕ → ℝ} {hc : ℕ → Bool} {nrows ncols : ℕ} {gamma : ℝ}
    {i j : ℕ} (hi : i < nrows) (hj : j < ncols) (c : ℕ) :
    Amat y hc nrows ncols gamma (i * ncols + j) c
      = (((rowCoeffs y hc nrows ncols gamma i j).filter
          fun t => t.2.1 == c).map fun t => t.2.2).sum := by
  unfold Amat
  have hcomm : (fun t : ℕ × ℕ × ℝ => t.1 == i * ncols + j && t.2.1 == c)
      = fun t : ℕ × ℕ × ℝ => (t.2.1 == c) && (t.1 == i * ncols + j) := by
    funext t
    exact Bool.and_comm _ _
  rw [hcomm, ← List.filter_filter, coefficients_filter_row y hc gamma hi hj]

lemma Amat_diag {y : ℕ → ℝ} {hc : ℕ → Bool} {nrows ncols : ℕ} {gamma : ℝ}
    {i j : ℕ} (hi : i < nrows) (hj : j < ncols) :
    Amat y hc nrows ncols gamma (i * ncols + j) (i * ncols + j) = 1 := by
  rw [Amat_row hi hj]
  unfold rowCoeffs
  rw [List.filter_cons]
  have hhead : (((i * ncols + j, i * ncols + j, (1 : ℝ)) : ℕ × ℕ × ℝ).2.1
      == i * ncols + j) = true := by simp
  rw [hhead]
  simp only [if_true]
  rw [zipRow_filter_not_mem (Or.inr (self_not_mem_getNeighbours hi hj))]
  simp

lemma Amat_neighbor {y : ℕ → ℝ} {hc : ℕ → Bool} {nrows ncols : ℕ} {gamma : ℝ}
    {i j : ℕ} (hi : i < nrows) (hj : j < ncols) (k : ℕ)
    (hk : k < (getNeighbours i j nrows ncols).length)
    (hkw : k < (getWeights y (i * ncols + j) (getNeighbours i j nrows ncols) gamma).length)
    (hmask : hc ((getNeighbours i j nrows ncols).get ⟨k, hk⟩) = false) :
    Amat y hc nrows ncols gamma (i * ncols + j)
        ((getNeighbours i j nrows ncols).get ⟨k, hk⟩)
      = -((getWeights y (i * ncols + j) (getNeighbours i j nrows ncols) gamma).get ⟨k, hkw⟩) := by
  rw [Amat_row hi hj]
  unfold rowCoeffs
  rw [List.filter_cons]
  have hne : i * ncols + j ≠ (getNeighbours i j nrows ncols).get ⟨k, hk⟩ := by
    intro heq
    exact self_not_mem_getNeighbours hi hj (heq ▸ List.get_mem _ k _)
  have hhead : (((i * ncols + j, i * ncols + j, (1 : ℝ)) : ℕ × ℕ × ℝ).2.1
      == (getNeighbours i j nrows ncols).get ⟨k, hk⟩) = false := by
    rw [beq_eq_false_iff_ne]
    exact hne
  rw [hhead]
  simp only [Bool.false_eq_true, if_false]
  rw [zipRow_filter_get (getNeighbours_nodup i j nrows ncols) k hk hkw hmask]
  simp

lemma Amat_zero {y : ℕ → ℝ} {hc : ℕ → Bool} {nrows ncols : ℕ} {gamma : ℝ}
    {i j : ℕ} (hi : i < nrows) (hj : j < ncols) (c : ℕ) (hcr : c ≠ i * ncols + j)
    (h : hc c = true ∨ c ∉ getNeighbours i j nrows ncols) :
    Amat y hc nrows ncols gamma (i * ncols + j) c = 0 := by
  rw [Amat_row hi hj]
  unfold rowCoeffs
  rw [List.filter_cons]
  have hhead : (((i * ncols + j, i * ncols + j, (1 : ℝ)) : ℕ × ℕ × ℝ).2.1 == c) = false := by
    rw [beq_eq_false_iff_ne]
    exact Ne.symm hcr
  rw [hhead]
  simp only [Bool.false_eq_true, if_false]
  rw [zipRow_filter_not_mem h]
  simp

lemma sum_map_ite_filter {α : Type} (l : List α) (q : α → Bool) (f : α → ℝ) :
    (l.map fun p => if q p then f p else 0).sum = ((l.filter q).map f).sum := by
  induction l with
  | nil => simp
  | cons a t ih =>
    by_cases hq : q a
    · simp [hq, ih]
    · simp only [Bool.not_eq_true] at hq
      simp [hq, ih]

lemma rhsVec_eq {y chroma : ℕ → ℝ} {hc : ℕ → Bool} {nrows ncols : ℕ} {gamma : ℝ}
    {i j : ℕ} (hi : i < nrows) (hj : j < ncols) :
    rhsVec y chroma hc nrows ncols gamma (i * ncols + j)
      = (((getNeighbours i j nrows ncols).zip
          (getWeights y (i * ncols + j) (getNeighbours i j nrows ncols) gamma)).map
        fun p => if hc p.1 then p.2 * chroma p.1 else 0).sum := by
  have hc0 : 0 < ncols := lt_of_le_of_lt (Nat.zero_le _) hj
  have hdiv : (i * ncols + j) / ncols = i := by
    rw [mul_comm, Nat.mul_add_div hc0, Nat.div_eq_of_lt hj, Nat.add_zero]
  have hmod : (i * ncols + j) % ncols = j := by
    rw [mul_comm, Nat.mul_add_mod, Nat.mod_eq_of_lt hj]
  unfold rhsVec
  rw [if_pos (pixel_lt hi hj), hdiv, hmod]

lemma getNeighbours_ne_nil {i j nrows ncols : ℕ} (hi : i < nrows) (hj : j < ncols)
    (hpix : 2 ≤ nrows * ncols) : getNeighbours i j nrows ncols ≠ [] := by
  rcases Nat.lt_or_ge (j + 1) ncols with hj1 | hj1
  · exact List.ne_nil_of_mem ((mem_getNeighbours hi hj).mpr
      ⟨i, j + 1, hi, hj1, by omega, by omega, by omega, by omega, by omega, rfl⟩)
  · rcases Nat.lt_or_ge (i + 1) nrows with hi1 | hi1
    · exact List.ne_nil_of_mem ((mem_getNeighbours hi hj).mpr
        ⟨i + 1, j, hi1, hj, by omega, by omega, by omega, by omega, by omega, rfl⟩)
    · -- i and j are the last row and column, so one of them is positive
      have hic : nrows = i + 1 := by omega
      have hjc : ncols = j + 1 := by omega
      have : 1 ≤ i ∨ 1 ≤ j := by
        by_contra hcon
        push_neg at hcon
        have : i = 0 ∧ j = 0 := by omega
        rw [hic, hjc, this.1, this.2] at hpix
        omega
      rcases this with h1 | h1
      · exact List.ne_nil_of_mem ((mem_getNeighbours hi hj).mpr
          ⟨i - 1, j, by omega, hj, by omega, by omega, by omega, by omega, by omega, rfl⟩)
      · exact List.ne_nil_of_mem ((mem_getNeighbours hi hj).mpr
          ⟨i, j - 1, hi, by omega, by omega, by omega, by omega, by omega, by omega, rfl⟩)

lemma sum_map_neg_list (ws : List ℝ) : (ws.map fun w => -w).sum = -ws.sum := by
  induction ws with
  | nil => simp
  | cons a t ih => simp [ih]; ring

/-! ## The mask extractor -/

lemma foldr_min_zero (l : List ℕ) (h : ∀ x ∈ l, x = 0) : l.foldr min 0 = 0 := by
  induction l with
  | nil => simp
  | cons a t ih =>
    rw [List.foldr_cons, h a (List.mem_cons_self a t),
      ih fun x hx => h x (List.mem_cons_of_mem _ hx)]
    exact min_self 0

lemma erode_zero {nrows ncols : ℕ} {m : ℕ → ℕ → ℕ} (h : ∀ i j, m i j = 0) :
    ∀ i j, erode nrows ncols m i j = 0 := by
  intro i j
  unfold erode
  rw [h i j]
  apply foldr_min_zero
  intro x hx
  obtain ⟨p, _, hp⟩ := List.mem_filterMap.mp hx
  by_cases hg : (i : ℤ) + p.2 < 0 ∨ (j : ℤ) + p.1 < 0
      ∨ (nrows : ℤ) ≤ (i : ℤ) + p.2 ∨ (ncols : ℤ) ≤ (j : ℤ) + p.1
  · rw [if_pos hg] at hp; exact absurd hp (by simp)
  · rw [if_neg hg] at hp
    rw [← Option.some_inj.mp hp, h]

lemma iterate_erode_zero {nrows ncols : ℕ} {m0 : ℕ → ℕ → ℕ} (h : ∀ i j, m0 i j = 0) :
    ∀ n i j, (erode nrows ncols)^[n] m0 i j = 0 := by
  intro n
  induction n with
  | zero => simpa using h
  | succ n ih =>
    intro i j
    rw [Function.iterate_succ_apply']
    exact erode_zero ih i j

lemma diffSum_self (image : ℕ → ℕ → ℕ × ℕ × ℕ) (i j : ℕ) :
    diffSum image image i j = 0 := by
  simp [diffSum, absdiff]

lemma thresholdBin_zero {eps : ℝ} (heps : 0 ≤ eps) : thresholdBin eps 0 = 0 := by
  unfold thresholdBin
  rw [if_neg]
  push_cast
  linarith

/-! ## Claims -/

/-- C2: for every pixel `r` with a non-empty neighbor set, the weights
produced by `getWeights` over that neighbor set are all non-negative and
sum to 1. -/
theorem weights_form_distribution (y : ℕ → ℝ) (gamma : ℝ) {i j nrows ncols : ℕ}
    (h : getNeighbours i j nrows ncols ≠ []) :
    (∀ w ∈ getWeights y (i * ncols + j) (getNeighbours i j nrows ncols) gamma, 0 ≤ w) ∧
    (getWeights y (i * ncols + j) (getNeighbours i j nrows ncols) gamma).sum = 1 :=
  ⟨getWeights_nonneg _ _ _ _, getWeights_sum _ _ _ _ h⟩

/-- Witness for C2: the single pixel `(0,0)` of a `1 × 2` grid has the
non-empty neighbor list `[1]`, over which the weights sum to 1 and are
non-negative. -/
theorem weights_form_distribution_witness :
    getNeighbours 0 0 1 2 ≠ [] ∧
    ((∀ w ∈ getWeights (fun _ => (0 : ℝ)) (0 * 2 + 0) (getNeighbours 0 0 1 2) 2, 0 ≤ w) ∧
      (getWeights (fun _ => (0 : ℝ)) (0 * 2 + 0) (getNeighbours 0 0 1 2) 2).sum = 1) :=
  ⟨by decide, weights_form_distribution (fun _ => 0) 2 (by decide)⟩

/-- C3: `getWeights` computes exactly the spec's formula: the
pre-normalization weight is `exp(-γ·(Y[r]-Y[s])² / (2·σ²))` with `σ²` the
population variance `E[X²]-E[X]²` of the neighbor luminances together with
`Y[r]`, plus the floor `0.01`, and the returned weights are these values
divided by their sum. -/
theorem weights_match_spec_formula (values : ℕ → ℝ) (r : ℕ) (neighbors : List ℕ)
    (gamma : ℝ) :
    getWeights values r neighbors gamma = specWeights values r neighbors gamma := by
  have hpre : preWeights values r neighbors gamma
      = neighbors.map fun s => Real.exp (-gamma * ((values r - values s) ^ 2) /
          (2 * (popVariance (neighbors.map values ++ [values r]) + 1 / 100))) := by
    unfold preWeights squaredDifference
    rw [variance_eq_popVariance, List.map_map]
    congr 1
    funext s
    simp [Function.comp, pow_two]
  unfold getWeights specWeights normalizer
  rw [hpre]

/-- C9: in `getWeights` both divisions are well defined: the `variance`
result is at least its additive floor `0.01`, and for a non-empty neighbor
list the `normalizer` is strictly positive, so every normalized weight is
non-negative (the assertion in the code). -/
theorem weight_divisions_well_defined (values : ℕ → ℝ) (r : ℕ) (neighbors : List ℕ)
    (gamma : ℝ) (h : neighbors ≠ []) :
    1 / 100 ≤ variance (neighbors.map values ++ [values r]) (1 / 100) ∧
    0 < normalizer values r neighbors gamma ∧
    ∀ w ∈ getWeights values r neighbors gamma, 0 ≤ w :=
  ⟨variance_ge _ _, normalizer_pos _ _ _ _ h, getWeights_nonneg _ _ _ _⟩

/-- Witness for C9 at the neighbor list `[1]`. -/
theorem weight_divisions_well_defined_witness :
    ([1] : List ℕ) ≠ [] ∧
    (1 / 100 ≤ variance (([1] : List ℕ).map (fun _ => (0 : ℝ)) ++ [(fun _ => (0 : ℝ)) 0]) (1 / 100) ∧
      0 < normalizer (fun _ => (0 : ℝ)) 0 [1] 2 ∧
      ∀ w ∈ getWeights (fun _ => (0 : ℝ)) 0 [1] 2, 0 ≤ w) :=
  ⟨by decide, weight_divisions_well_defined (fun _ => 0) 0 [1] 2 (by decide)⟩

/-- C6 (amended): the neighbor set of pixel `(i, j)` is exactly the 3×3
window centered on it, minus the center, clipped to the grid; a pixel is
never its own neighbor; interior pixels have 8 neighbors; and — provided
the grid has at least 2 rows and 2 columns — border pixels have 3 or 5
neighbors. -/
theorem neighbour_window_characterization {i j nrows ncols : ℕ}
    (hi : i < nrows) (hj : j < ncols) :
    (∀ s, s ∈ getNeighbours i j nrows ncols ↔
        ∃ m n : ℕ, m < nrows ∧ n < ncols ∧ ¬(m = i ∧ n = j) ∧
          m ≤ i + 1 ∧ i ≤ m + 1 ∧ n ≤ j + 1 ∧ j ≤ n + 1 ∧ s = m * ncols + n) ∧
    i * ncols + j ∉ getNeighbours i j nrows ncols ∧
    (1 ≤ i → i + 1 < nrows → 1 ≤ j → j + 1 < ncols →
      (getNeighbours i j nrows ncols).length = 8) ∧
    (2 ≤ nrows → 2 ≤ ncols → (i = 0 ∨ i = nrows - 1 ∨ j = 0 ∨ j = ncols - 1) →
      (getNeighbours i j nrows ncols).length = 3 ∨
        (getNeighbours i j nrows ncols).length = 5) := by
  refine ⟨fun s => mem_getNeighbours hi hj, self_not_mem_getNeighbours hi hj, ?_, ?_⟩
  · intro h1 h2 h3 h4
    rw [length_getNeighbours hi hj]
    have ha : min (i + 1) (nrows - 1) + 1 - (i - 1) = 3 := by omega
    have hb : min (j + 1) (ncols - 1) + 1 - (j - 1) = 3 := by omega
    rw [ha, hb]
  · intro h2r h2c hborder
    rw [length_getNeighbours hi hj]
    have ha : min (i + 1) (nrows - 1) + 1 - (i - 1) = 2
        ∨ min (i + 1) (nrows - 1) + 1 - (i - 1) = 3 := by omega
    have hb : min (j + 1) (ncols - 1) + 1 - (j - 1) = 2
        ∨ min (j + 1) (ncols - 1) + 1 - (j - 1) = 3 := by omega
    have hab : min (i + 1) (nrows - 1) + 1 - (i - 1) = 2
        ∨ min (j + 1) (ncols - 1) + 1 - (j - 1) = 2 := by omega
    rcases ha with ha | ha <;> rcases hb with hb | hb
    · rw [ha, hb]; left; rfl
    · rw [ha, hb]; right; rfl
    · rw [ha, hb]; right; rfl
    · exfalso; omega

/-- Counterexample to C6 as stated: on a `1 × 2` grid the border pixel
`(0, 0)` has exactly one neighbor, not 3 or 5. -/
theorem neighbour_window_counterexample :
    (0 = 0 ∨ 0 = 1 - 1 ∨ 0 = 0 ∨ 0 = 2 - 1) ∧
    ¬((getNeighbours 0 0 1 2).length = 3 ∨ (getNeighbours 0 0 1 2).length = 5) :=
  ⟨Or.inl rfl, by decide⟩

/-- Witness for C6 at the interior pixel `(1, 1)` of a `3 × 3` grid. -/
theorem neighbour_window_characterization_witness :
    (1 < 3 ∧ 1 < 3) ∧
    ((∀ s, s ∈ getNeighbours 1 1 3 3 ↔
        ∃ m n : ℕ, m < 3 ∧ n < 3 ∧ ¬(m = 1 ∧ n = 1) ∧
          m ≤ 1 + 1 ∧ 1 ≤ m + 1 ∧ n ≤ 1 + 1 ∧ 1 ≤ n + 1 ∧ s = m * 3 + n) ∧
      1 * 3 + 1 ∉ getNeighbours 1 1 3 3 ∧
      (1 ≤ 1 → 1 + 1 < 3 → 1 ≤ 1 → 1 + 1 < 3 → (getNeighbours 1 1 3 3).length = 8) ∧
      (2 ≤ 3 → 2 ≤ 3 → (1 = 0 ∨ 1 = 3 - 1 ∨ 1 = 0 ∨ 1 = 3 - 1) →
        (getNeighbours 1 1 3 3).length = 3 ∨ (getNeighbours 1 1 3 3).length = 5)) :=
  ⟨⟨by decide, by decide⟩, neighbour_window_characterization (by decide) (by decide)⟩

/-- C7: `getScribbleMask` applied to an image and a pixel-identical
scribbles image returns an all-false (all-zero) mask, for any non-negative
threshold and any number of erosions. -/
theorem scribble_mask_identical_all_false (nrows ncols : ℕ)
    (image : ℕ → ℕ → ℕ × ℕ × ℕ) (eps : ℝ) (nErosions : ℕ) (heps : 0 ≤ eps) :
    ∀ i j, getScribbleMask nrows ncols image image eps nErosions i j = 0 := by
  unfold getScribbleMask
  apply iterate_erode_zero
  intro i j
  rw [diffSum_self, thresholdBin_zero heps]

/-- Witness for C7 at the default parameters `eps = 1`, `nErosions = 1` on
a constant image. -/
theorem scribble_mask_identical_all_false_witness :
    (0 : ℝ) ≤ 1 ∧
    ∀ i j, getScribbleMask 2 2 (fun _ _ => (7, 3, 5)) (fun _ _ => (7, 3, 5)) 1 1 i j = 0 :=
  ⟨by norm_num,
    scribble_mask_identical_all_false 2 2 (fun _ _ => (7, 3, 5)) 1 1 (by norm_num)⟩

/-- C8: `colorize` is deterministic — the embedding of the pipeline is a
pure function of `(image, scribbles, mask, gamma)` (together with the
deterministic solver), so two runs on the same inputs produce identical
output. -/
theorem colorize_deterministic
    (solve : (ℕ → ℕ → ℝ) → (ℕ → ℝ) → (ℕ → ℝ) × Bool)
    (y u v : ℕ → ℝ) (hc : ℕ → Bool) (nrows ncols : ℕ) (gamma : ℝ) :
    colorize solve y u v hc nrows ncols gamma
      = colorize solve y u v hc nrows ncols gamma := rfl

/-- C1: for every pixel `r = i*ncols + j` of the grid (no special case for
`hasColor[r]` true), the assembled system has `A[r,r] = 1`; `A[r,s] = -w(r,s)`
for each neighbor `s` with `hasColor[s]` false; all other entries of row `r`
(including masked neighbors) are zero; and the masked neighbors contribute
`w(r,s)·u[s]` to `bu[r]` and `w(r,s)·v[s]` to `bv[r]`. -/
theorem assembled_row_structure (y u v : ℕ → ℝ) (hc : ℕ → Bool) (gamma : ℝ)
    {i j nrows ncols : ℕ} (hi : i < nrows) (hj : j < ncols) :
    Amat y hc nrows ncols gamma (i * ncols + j) (i * ncols + j) = 1 ∧
    (∀ k (hk : k < (getNeighbours i j nrows ncols).length)
        (hkw : k < (getWeights y (i * ncols + j) (getNeighbours i j nrows ncols) gamma).length),
      hc ((getNeighbours i j nrows ncols).get ⟨k, hk⟩) = false →
        Amat y hc nrows ncols gamma (i * ncols + j)
            ((getNeighbours i j nrows ncols).get ⟨k, hk⟩)
          = -((getWeights y (i * ncols + j) (getNeighbours i j nrows ncols) gamma).get
              ⟨k, hkw⟩)) ∧
    (∀ c, c ≠ i * ncols + j → (hc c = true ∨ c ∉ getNeighbours i j nrows ncols) →
      Amat y hc nrows ncols gamma (i * ncols + j) c = 0) ∧
    rhsVec y u hc nrows ncols gamma (i * ncols + j)
      = ((((getNeighbours i j nrows ncols).zip
          (getWeights y (i * ncols + j) (getNeighbours i j nrows ncols) gamma)).filter
            fun p => hc p.1).map fun p => p.2 * u p.1).sum ∧
    rhsVec y v hc nrows ncols gamma (i * ncols + j)
      = ((((getNeighbours i j nrows ncols).zip
          (getWeights y (i * ncols + j) (getNeighbours i j nrows ncols) gamma)).filter
            fun p => hc p.1).map fun p => p.2 * v p.1).sum := by
  refine ⟨Amat_diag hi hj, fun k hk hkw hmask => Amat_neighbor hi hj k hk hkw hmask,
    fun c hcr h => Amat_zero hi hj c hcr h, ?_, ?_⟩
  · rw [rhsVec_eq hi hj, sum_map_ite_filter]
  · rw [rhsVec_eq hi hj, sum_map_ite_filter]

/-- Witness for C1 at pixel `(0,0)` of a `1 × 2` grid. -/
theorem assembled_row_structure_witness :
    (0 < 1 ∧ 0 < 2) ∧
    (Amat (fun _ => (0 : ℝ)) (fun _ => false) 1 2 2 (0 * 2 + 0) (0 * 2 + 0) = 1 ∧
      (∀ k (hk : k < (getNeighbours 0 0 1 2).length)
          (hkw : k < (getWeights (fun _ => (0 : ℝ)) (0 * 2 + 0) (getNeighbours 0 0 1 2) 2).length),
        (fun _ => false) ((getNeighbours 0 0 1 2).get ⟨k, hk⟩) = false →
          Amat (fun _ => (0 : ℝ)) (fun _ => false) 1 2 2 (0 * 2 + 0)
              ((getNeighbours 0 0 1 2).get ⟨k, hk⟩)
            = -((getWeights (fun _ => (0 : ℝ)) (0 * 2 + 0) (getNeighbours 0 0 1 2) 2).get
                ⟨k, hkw⟩)) ∧
      (∀ c, c ≠ 0 * 2 + 0 → ((fun _ => false) c = true ∨ c ∉ getNeighbours 0 0 1 2) →
        Amat (fun _ => (0 : ℝ)) (fun _ => false) 1 2 2 (0 * 2 + 0) c = 0) ∧
      rhsVec (fun _ => (0 : ℝ)) (fun _ => (1 : ℝ)) (fun _ => false) 1 2 2 (0 * 2 + 0)
        = ((((getNeighbours 0 0 1 2).zip
            (getWeights (fun _ => (0 : ℝ)) (0 * 2 + 0) (getNeighbours 0 0 1 2) 2)).filter
              fun p => (fun _ => false) p.1).map fun p => p.2 * (fun _ => (1 : ℝ)) p.1).sum ∧
      rhsVec (fun _ => (0 : ℝ)) (fun _ => (2 : ℝ)) (fun _ => false) 1 2 2 (0 * 2 + 0)
        = ((((getNeighbours 0 0 1 2).zip
            (getWeights (fun _ => (0 : ℝ)) (0 * 2 + 0) (getNeighbours 0 0 1 2) 2)).filter
              fun p => (fun _ => false) p.1).map fun p => p.2 * (fun _ => (2 : ℝ)) p.1).sum) :=
  ⟨⟨by decide, by decide⟩,
    assembled_row_structure (fun _ => 0) (fun _ => 1) (fun _ => 2) (fun _ => false) 2
      (by decide) (by decide)⟩

/-- C5 (amended): for a mask that is entirely false, on a grid with at
least two pixels, the assembled `bu`, `bv` vanish and every row of `A` has
unit diagonal with its off-diagonal entries summing to `-1`. -/
theorem zero_scribbles_system (y u v : ℕ → ℝ) (hc : ℕ → Bool) (gamma : ℝ)
    {i j nrows ncols : ℕ} (hi : i < nrows) (hj : j < ncols)
    (hmask : ∀ p, hc p = false) (hpix : 2 ≤ nrows * ncols) :
    rhsVec y u hc nrows ncols gamma (i * ncols + j) = 0 ∧
    rhsVec y v hc nrows ncols gamma (i * ncols + j) = 0 ∧
    Amat y hc nrows ncols gamma (i * ncols + j) (i * ncols + j) = 1 ∧
    ∑ c ∈ Finset.range (nrows * ncols) \ {i * ncols + j},
      Amat y hc nrows ncols gamma (i * ncols + j) c = -1 := by
  have hnd := getNeighbours_nodup i j nrows ncols
  have hnil : getNeighbours i j nrows ncols ≠ [] := getNeighbours_ne_nil hi hj hpix
  refine ⟨?_, ?_, Amat_diag hi hj, ?_⟩
  · rw [rhsVec_eq hi hj]
    apply List.sum_eq_zero
    intro x hx
    obtain ⟨p, _, hp⟩ := List.mem_map.mp hx
    rw [hmask p.1] at hp
    simpa using hp.symm
  · rw [rhsVec_eq hi hj]
    apply List.sum_eq_zero
    intro x hx
    obtain ⟨p, _, hp⟩ := List.mem_map.mp hx
    rw [hmask p.1] at hp
    simpa using hp.symm
  · have hsub : (getNeighbours i j nrows ncols).toFinset
        ⊆ Finset.range (nrows * ncols) \ {i * ncols + j} := by
      intro s hs
      rw [List.mem_toFinset] at hs
      rw [Finset.mem_sdiff, Finset.mem_range, Finset.mem_singleton]
      refine ⟨getNeighbours_lt hi hj s hs, ?_⟩
      intro heq
      exact self_not_mem_getNeighbours hi hj (heq ▸ hs)
    rw [← Finset.sum_subset hsub ?hzero]
    case hzero =>
      intro c hcmem hcnot
      obtain ⟨hcrange, hcne⟩ := Finset.mem_sdiff.mp hcmem
      refine Amat_zero hi hj c (Finset.not_mem_singleton.mp hcne) ?_
      exact Or.inr fun hmem => hcnot (List.mem_toFinset.mpr hmem)
    rw [List.sum_toFinset _ hnd]
    have hmap : (getNeighbours i j nrows ncols).map
        (Amat y hc nrows ncols gamma (i * ncols + j))
        = (getWeights y (i * ncols + j) (getNeighbours i j nrows ncols) gamma).map
          fun w => -w := by
      apply List.ext_get
      · simp [getWeights_length]
      · intro k h1 h2
        rw [List.get_map, List.get_map]
        exact Amat_neighbor hi hj k _ _ (hmask _)
    rw [hmap, sum_map_neg_list,
      getWeights_sum y (i * ncols + j) (getNeighbours i j nrows ncols) gamma hnil]

/-- Counterexample to C5 as stated: on a `1 × 1` grid with an all-false
mask, the single row of `A` has no off-diagonal entries, so they sum to 0,
not `-1`. -/
theorem zero_scribbles_counterexample :
    (∀ p : ℕ, (fun _ : ℕ => false) p = false) ∧
    ¬(∑ c ∈ Finset.range (1 * 1) \ {0 * 1 + 0},
        Amat (fun _ => (0 : ℝ)) (fun _ : ℕ => false) 1 1 2 (0 * 1 + 0) c = -1) := by
  refine ⟨fun p => rfl, ?_⟩
  intro hsum
  have hempty : Finset.range (1 * 1) \ {0 * 1 + 0} = (∅ : Finset ℕ) := by decide
  rw [hempty, Finset.sum_empty] at hsum
  norm_num at hsum

/-- Witness for C5 at pixel `(0,0)` of a `1 × 2` grid with an all-false
mask. -/
theorem zero_scribbles_system_witness :
    (0 < 1 ∧ 0 < 2 ∧ (∀ p : ℕ, (fun _ : ℕ => false) p = false) ∧ 2 ≤ 1 * 2) ∧
    (rhsVec (fun _ => (0 : ℝ)) (fun _ => (1 : ℝ)) (fun _ => false) 1 2 2 (0 * 2 + 0) = 0 ∧
      rhsVec (fun _ => (0 : ℝ)) (fun _ => (2 : ℝ)) (fun _ => false) 1 2 2 (0 * 2 + 0) = 0 ∧
      Amat (fun _ => (0 : ℝ)) (fun _ => false) 1 2 2 (0 * 2 + 0) (0 * 2 + 0) = 1 ∧
      ∑ c ∈ Finset.range (1 * 2) \ {0 * 2 + 0},
        Amat (fun _ => (0 : ℝ)) (fun _ => false) 1 2 2 (0 * 2 + 0) c = -1) :=
  ⟨⟨by decide, by decide, fun p => rfl, by decide⟩,
    zero_scribbles_system (fun _ => 0) (fun _ => 1) (fun _ => 2) (fun _ => false) 2
      (by decide) (by decide) (fun p => rfl) (by decide)⟩

/-- C10: the neighbor relation is symmetric, and between two distinct
unconstrained pixels the off-diagonal sparsity pattern of `A` is
structurally symmetric. -/
theorem neighbor_symmetry_and_sparsity (y : ℕ → ℝ) (hc : ℕ → Bool) (gamma : ℝ)
    {i j m n nrows ncols : ℕ} (hi : i < nrows) (hj : j < ncols)
    (hm : m < nrows) (hn : n < ncols) (hne : ¬(m = i ∧ n = j))
    (hcr : hc (i * ncols + j) = false) (hcs : hc (m * ncols + n) = false) :
    (m * ncols + n ∈ getNeighbours i j nrows ncols ↔
      i * ncols + j ∈ getNeighbours m n nrows ncols) ∧
    (Amat y hc nrows ncols gamma (i * ncols + j) (m * ncols + n) ≠ 0 ↔
      Amat y hc nrows ncols gamma (m * ncols + n) (i * ncols + j) ≠ 0) := by
  have hsymm := getNeighbours_symm hi hj hm hn
  refine ⟨hsymm, ?_⟩
  have hrs : m * ncols + n ≠ i * ncols + j := by
    intro heq
    obtain ⟨e1, e2⟩ := encode_inj hn hj heq
    exact hne ⟨e1, e2⟩
  have key : ∀ a b c d : ℕ, a < nrows → b < ncols → c < nrows → d < ncols →
      hc (c * ncols + d) = false → c * ncols + d ≠ a * ncols + b →
      (Amat y hc nrows ncols gamma (a * ncols + b) (c * ncols + d) ≠ 0 ↔
        c * ncols + d ∈ getNeighbours a b nrows ncols) := by
    intro a b c d ha hb hcq hdq hmaskcd hneq
    constructor
    · intro hA
      by_contra hmem
      exact hA (Amat_zero ha hb _ hneq (Or.inr hmem))
    · intro hmem
      obtain ⟨⟨k, hk⟩, hgetk⟩ := List.mem_iff_get.mp hmem
      have hkw : k < (getWeights y (a * ncols + b) (getNeighbours a b nrows ncols) gamma).length := by
        rw [getWeights_length]; exact hk
      rw [← hgetk]
      rw [Amat_neighbor ha hb k hk hkw (by rw [hgetk]; exact hmaskcd)]
      have := getWeights_get_pos y (a * ncols + b) (getNeighbours a b nrows ncols) gamma k hkw
      intro hzero
      rw [neg_eq_zero] at hzero
      exact absurd hzero (ne_of_gt this)
  rw [key i j m n hi hj hm hn hcs hrs, key m n i j hm hn hi hj hcr (Ne.symm hrs)]
  exact hsymm

/-- Witness for C10: pixels `(0,0)` and `(0,1)` of a `2 × 2` grid, both
unconstrained. -/
theorem neighbor_symmetry_and_sparsity_witness :
    (0 < 2 ∧ 0 < 2 ∧ 0 < 2 ∧ 1 < 2 ∧ ¬(0 = 0 ∧ 1 = 0) ∧
      (fun _ : ℕ => false) (0 * 2 + 0) = false ∧
      (fun _ : ℕ => false) (0 * 2 + 1) = false) ∧
    ((0 * 2 + 1 ∈ getNeighbours 0 0 2 2 ↔ 0 * 2 + 0 ∈ getNeighbours 0 1 2 2) ∧
      (Amat (fun _ => (0 : ℝ)) (fun _ => false) 2 2 2 (0 * 2 + 0) (0 * 2 + 1) ≠ 0 ↔
        Amat (fun _ => (0 : ℝ)) (fun _ => false) 2 2 2 (0 * 2 + 1) (0 * 2 + 0) ≠ 0)) :=
  ⟨⟨by decide, by decide, by decide, by decide, by decide, rfl, rfl⟩,
    neighbor_symmetry_and_sparsity (fun _ => 0) (fun _ => false) 2
      (by decide) (by decide) (by decide) (by decide) (by decide) rfl rfl⟩

/-- C4: if either per-channel solve reports failure, `colorize` propagates
an error and returns no image. -/
theorem solver_failure_propagates
    (solve : (ℕ → ℕ → ℝ) → (ℕ → ℝ) → (ℕ → ℝ) × Bool)
    (y u v : ℕ → ℝ) (hc : ℕ → Bool) (nrows ncols : ℕ) (gamma : ℝ)
    (h : (solve (Amat y hc nrows ncols gamma) (rhsVec y u hc nrows ncols gamma)).2 = false
      ∨ (solve (Amat y hc nrows ncols gamma) (rhsVec y v hc nrows ncols gamma)).2 = false) :
    (∃ e : SolveError, colorize solve y u v hc nrows ncols gamma = Except.error e) ∧
    ∀ result, colorize solve y u v hc nrows ncols gamma ≠ Except.ok result := by
  unfold colorize
  by_cases hU : (solve (Amat y hc nrows ncols gamma) (rhsVec y u hc nrows ncols gamma)).2 = true
  · have hV : (solve (Amat y hc nrows ncols gamma) (rhsVec y v hc nrows ncols gamma)).2 = false := by
      rcases h with h | h
      · rw [h] at hU; exact absurd hU (by simp)
      · exact h
    rw [if_pos hU, if_neg (by rw [hV]; simp)]
    exact ⟨⟨SolveError.vChannel, rfl⟩, fun result => by simp⟩
  · rw [if_neg hU]
    exact ⟨⟨SolveError.uChannel, rfl⟩, fun result => by simp⟩

/-- Witness for C4: a solver that always reports failure makes `colorize`
return an error and never an image. -/
theorem solver_failure_propagates_witness :
    (((fun (_ : ℕ → ℕ → ℝ) (_ : ℕ → ℝ) => ((fun _ : ℕ => (0 : ℝ)), false))
          (Amat (fun _ => 0) (fun _ => false) 1 1 2)
          (rhsVec (fun _ => 0) (fun _ => 0) (fun _ => false) 1 1 2)).2 = false ∨
      ((fun (_ : ℕ → ℕ → ℝ) (_ : ℕ → ℝ) => ((fun _ : ℕ => (0 : ℝ)), false))
          (Amat (fun _ => 0) (fun _ => false) 1 1 2)
          (rhsVec (fun _ => 0) (fun _ => 0) (fun _ => false) 1 1 2)).2 = false) ∧
    ((∃ e : SolveError,
        colorize (fun _ _ => ((fun _ : ℕ => (0 : ℝ)), false))
          (fun _ => 0) (fun _ => 0) (fun _ => 0) (fun _ => false) 1 1 2
          = Except.error e) ∧
      ∀ result,
        colorize (fun _ _ => ((fun _ : ℕ => (0 : ℝ)), false))
          (fun _ => 0) (fun _ => 0) (fun _ => 0) (fun _ => false) 1 1 2
          ≠ Except.ok result) :=
  ⟨Or.inl rfl,
    solver_failure_propagates (fun _ _ => ((fun _ : ℕ => (0 : ℝ)), false))
      (fun _ => 0) (fun _ => 0) (fun _ => 0) (fun _ => false) 1 1 2 (Or.inl rfl)⟩

end co
